import Mathlib

/-!
Verification of the bit packer in src/tohex.py.

The program reads a raw byte file, computes numPixels = len(data) // 3,
and for each pixel i tests whether data[3*i] equals 255.  It packs these
boolean results least-significant-bit-first into a 64-bit accumulator,
flushing the accumulator as a comma-separated, zero-padded, uppercase
16-digit hexadecimal word every 64 pixels and at the final pixel.

The embedding below models the byte sequence as a `List Nat`, the loop as a
left fold over `List.range numPixels`, and the sequence of `write` calls on
the output file as a `List String`; the final file content is the
concatenation of those writes.
-/

/-- Number of pixels: `numPixels = len(data) // 3` (line 11 of tohex.py). -/
def numPixels (data : List Nat) : Nat := data.length / 3

/-- The bit computed for pixel `i`:
`value = 1 if data[3 * i] == 255 else 0` (line 13 of tohex.py).
For `i < numPixels` the index `3 * i` is always in bounds, so the
`getD` default is never used there. -/
def pixelBit (data : List Nat) (i : Nat) : Nat :=
  if data.getD (3 * i) 0 = 255 then 1 else 0

/-- The sixteen uppercase hexadecimal digit characters, in value order. -/
def hexChars : List Char := "0123456789ABCDEF".data

/-- The hexadecimal digit character for a value `d < 16`. -/
def hexDigit (d : Nat) : Char := hexChars.getD d '0'

/-- Hexadecimal digits of `n`, least significant first, computed with a
fuel argument so that the recursion is structural.  With `fuel ≥ n` the
fuel never runs out, because the number of hexadecimal digits of `n` is
at most `n` for `n ≥ 1`. -/
def hexDigitsRevFuel : Nat → Nat → List Char
  | _, 0 => []
  | 0, _ + 1 => []
  | fuel + 1, n + 1 => hexDigit ((n + 1) % 16) :: hexDigitsRevFuel fuel ((n + 1) / 16)

/-- Hexadecimal digits of `n`, least significant first; empty for `n = 0`. -/
def hexDigitsRev (n : Nat) : List Char := hexDigitsRevFuel n n

/-- The character list produced by the Python format specification `016X`:
the uppercase hexadecimal digits of `n`, left padded with `0` to a minimum
width of sixteen characters (line 17 of tohex.py). -/
def hexPad16 (n : Nat) : List Char :=
  let ds := if n = 0 then ['0'] else (hexDigitsRev n).reverse
  List.replicate (16 - ds.length) '0' ++ ds

/-- The string produced by the Python format specification `016X`. -/
def format016X (n : Nat) : String := String.mk (hexPad16 n)

/-- Loop state of the packer: the pending separator `comma`, the bit count
`numBits`, the accumulator `bits` (lines 8 to 10 of tohex.py), and the list
of strings written to the output file so far. -/
structure PackState where
  comma : String
  numBits : Nat
  bits : Nat
  writes : List String
deriving DecidableEq, Repr

/-- Initial state: `comma = ''`, `numBits = 0`, `bits = 0`, nothing written. -/
def initState : PackState := { comma := "", numBits := 0, bits := 0, writes := [] }

/-- One iteration of the loop body (lines 12 to 21 of tohex.py) at index `i`:
compute the pixel bit, OR it into the accumulator at position `numBits`,
increment `numBits`, and when `numBits` reaches 64 or `i` is the last index,
write `comma + '0x' + format(bits)` and reset the accumulator.  Python
integers are unbounded, so the accumulator is a plain `Nat`. -/
def packStep (data : List Nat) (numPixels : Nat) (s : PackState) (i : Nat) : PackState :=
  let value := pixelBit data i
  let bits := s.bits ||| (value <<< s.numBits)
  let numBits := s.numBits + 1
  if numBits = 64 ∨ i = numPixels - 1 then
    let hexStr := s.comma ++ "0x" ++ format016X bits
    { comma := ", ", numBits := 0, bits := 0, writes := s.writes ++ [hexStr] }
  else
    { comma := s.comma, numBits := numBits, bits := bits, writes := s.writes }

/-- The whole loop: fold the body over `i` in `range numPixels`. -/
def tohexRun (data : List Nat) : PackState :=
  (List.range (numPixels data)).foldl (packStep data (numPixels data)) initState

/-- The text written to the output file: the concatenation of all writes. -/
def tohexOutput (data : List Nat) : String := String.join (tohexRun data).writes

/-- State of the loop after the first `m` iterations (clamped to the total). -/
def stateAfter (data : List Nat) (m : Nat) : PackState :=
  (List.range (min m (numPixels data))).foldl (packStep data (numPixels data)) initState

/-- Value of the partial word for block `k` built from its first `t` bits,
least-significant-bit-first. -/
def partialWord (data : List Nat) (k t : Nat) : Nat :=
  ∑ j ∈ Finset.range t, pixelBit data (64 * k + j) * 2 ^ j

/-- Value of the `k`-th emitted word: the pixels of block `k` that exist,
packed least-significant-bit-first. -/
def wordVal (data : List Nat) (k : Nat) : Nat :=
  partialWord data k (min 64 (numPixels data - 64 * k))

/-- Number of emitted words: the ceiling of `numPixels / 64`. -/
def numWords (data : List Nat) : Nat := (numPixels data + 63) / 64

/-- The `k`-th string passed to `write`: the separator (empty for the first
word), then `0x`, then the zero-padded hexadecimal value of the word. -/
def fmtWord (data : List Nat) (k : Nat) : String :=
  (if k = 0 then "" else ", ") ++ "0x" ++ format016X (wordVal data k)

/-! ### Basic facts about the pixel bit and partial words -/

theorem pixelBit_le_one (data : List Nat) (i : Nat) : pixelBit data i ≤ 1 := by
  unfold pixelBit
  split <;> simp

theorem partialWord_succ (data : List Nat) (k t : Nat) :
    partialWord data k (t + 1) =
      partialWord data k t + pixelBit data (64 * k + t) * 2 ^ t := by
  unfold partialWord
  exact Finset.sum_range_succ _ t

theorem partialWord_lt (data : List Nat) (k t : Nat) :
    partialWord data k t < 2 ^ t := by
  induction t with
  | zero => simp [partialWord]
  | succ t ih =>
    rw [partialWord_succ, pow_succ]
    have hb : pixelBit data (64 * k + t) * 2 ^ t ≤ 2 ^ t :=
      Nat.mul_le_of_le_div _ _ _ (by simpa using pixelBit_le_one data (64 * k + t))
    omega

theorem or_shiftLeft_eq_add {a v t : Nat} (ha : a < 2 ^ t) (hv : v ≤ 1) :
    a ||| (v <<< t) = a + v * 2 ^ t := by
  interval_cases v
  · simp [Nat.shiftLeft_eq]
  · rw [Nat.shiftLeft_eq, one_mul]
    have h := Nat.mul_add_lt_is_or ha 1
    rw [mul_one] at h
    rw [Nat.or_comm, ← h]
    omega

theorem partialWord_zero (data : List Nat) (k : Nat) : partialWord data k 0 = 0 := by
  simp [partialWord]

/-! ### Evolution of the loop state -/

theorem stateAfter_zero (data : List Nat) : stateAfter data 0 = initState := by
  simp [stateAfter]

theorem stateAfter_succ (data : List Nat) (m : Nat) (h : m < numPixels data) :
    stateAfter data (m + 1) =
      packStep data (numPixels data) (stateAfter data m) m := by
  unfold stateAfter
  rw [min_eq_left (Nat.succ_le_of_lt h), min_eq_left (le_of_lt h), List.range_succ,
    List.foldl_append]
  simp

theorem tohexRun_eq_stateAfter (data : List Nat) :
    tohexRun data = stateAfter data (numPixels data) := by
  unfold tohexRun stateAfter
  rw [min_self]

theorem stateAfter_invariant (data : List Nat) :
    ∀ m, m < numPixels data →
      stateAfter data m =
        { comma := if m / 64 = 0 then "" else ", ",
          numBits := m % 64,
          bits := partialWord data (m / 64) (m % 64),
          writes := (List.range (m / 64)).map (fmtWord data) } := by
  intro m
  induction m with
  | zero =>
    intro _
    simp [stateAfter_zero, initState, partialWord]
  | succ m ih =>
    intro hm1
    have hm : m < numPixels data := Nat.lt_of_succ_lt hm1
    rw [stateAfter_succ data m hm, ih hm]
    have hne : m ≠ numPixels data - 1 := by omega
    have hqm : 64 * (m / 64) + m % 64 = m := Nat.div_add_mod m 64
    by_cases hr : m % 64 = 63
    · have hcond : m % 64 + 1 = 64 ∨ m = numPixels data - 1 := Or.inl (by omega)
      simp only [packStep, if_pos hcond]
      have hq1 : (m + 1) / 64 = m / 64 + 1 := by omega
      have hq0 : (m + 1) % 64 = 0 := by omega
      have hbits : partialWord data (m / 64) (m % 64) ||| (pixelBit data m <<< (m % 64)) =
          wordVal data (m / 64) := by
        rw [or_shiftLeft_eq_add (partialWord_lt data _ _) (pixelBit_le_one data m)]
        have h64 : min 64 (numPixels data - 64 * (m / 64)) = 64 :=
          min_eq_left (by omega)
        rw [wordVal, h64]
        have h63 : partialWord data (m / 64) 64 =
            partialWord data (m / 64) 63 + pixelBit data (64 * (m / 64) + 63) * 2 ^ 63 := by
          simpa using partialWord_succ data (m / 64) 63
        have harg : 64 * (m / 64) + 63 = m := by omega
        rw [h63, harg, hr]
      simp only [PackState.mk.injEq]
      refine ⟨?_, ?_, ?_, ?_⟩
      · rw [hq1]
        simp
      · omega
      · rw [hq1, hq0, partialWord_zero]
      · rw [hq1, List.range_succ, List.map_append, hbits]
        rfl
    · have hcond : ¬ (m % 64 + 1 = 64 ∨ m = numPixels data - 1) := by
        push_neg
        exact ⟨by omega, hne⟩
      simp only [packStep, if_neg hcond]
      have hq : (m + 1) / 64 = m / 64 := by omega
      have hrm : (m + 1) % 64 = m % 64 + 1 := by omega
      simp only [PackState.mk.injEq]
      refine ⟨by rw [hq], by omega, ?_, by rw [hq]⟩
      rw [or_shiftLeft_eq_add (partialWord_lt data _ _) (pixelBit_le_one data m)]
      rw [hq, hrm, partialWord_succ, hqm]

/-- Closed form of the full run: nothing pending in the accumulator and one
formatted word written for every block of up to 64 pixels. -/
theorem tohexRun_eq (data : List Nat) :
    tohexRun data =
      { comma := if numPixels data = 0 then "" else ", ",
        numBits := 0,
        bits := 0,
        writes := (List.range (numWords data)).map (fmtWord data) } := by
  rcases Nat.eq_zero_or_pos (numPixels data) with h0 | hpos
  · rw [tohexRun_eq_stateAfter, h0, stateAfter_zero]
    simp [initState, numWords, h0]
  · have hm : numPixels data - 1 < numPixels data := by omega
    have hsplit : numPixels data = (numPixels data - 1) + 1 := by omega
    rw [tohexRun_eq_stateAfter]
    rw [hsplit, stateAfter_succ data _ (by omega),
      stateAfter_invariant data _ (by omega)]
    have hqm : 64 * ((numPixels data - 1) / 64) + (numPixels data - 1) % 64 =
        numPixels data - 1 := Nat.div_add_mod _ 64
    simp only [packStep, or_true, ite_true]
    have hbits : partialWord data ((numPixels data - 1) / 64) ((numPixels data - 1) % 64) |||
        (pixelBit data (numPixels data - 1) <<< ((numPixels data - 1) % 64)) =
        wordVal data ((numPixels data - 1) / 64) := by
      rw [or_shiftLeft_eq_add (partialWord_lt data _ _) (pixelBit_le_one data _)]
      have hmin : min 64 (numPixels data - 64 * ((numPixels data - 1) / 64)) =
          (numPixels data - 1) % 64 + 1 := by omega
      rw [wordVal, hmin, partialWord_succ, hqm]
    have hW : numWords data = (numPixels data - 1) / 64 + 1 := by
      unfold numWords
      omega
    simp only [PackState.mk.injEq]
    refine ⟨by simp [hpos.ne.symm], trivial, trivial, ?_⟩
    rw [hW, List.range_succ, List.map_append, hbits]
    rfl

/-- The list of writes of the full run, as formatted words. -/
theorem tohexRun_writes (data : List Nat) :
    (tohexRun data).writes = (List.range (numWords data)).map (fmtWord data) := by
  rw [tohexRun_eq]

/-! ### Reading a bit back out of a partial word -/

theorem pixelBit_eq_one_iff (data : List Nat) (i : Nat) :
    pixelBit data i = 1 ↔ data.getD (3 * i) 0 = 255 := by
  unfold pixelBit
  split <;> simp_all

theorem partialWord_testBit (data : List Nat) (k : Nat) :
    ∀ t j, j < t →
      Nat.testBit (partialWord data k t) j = decide (pixelBit data (64 * k + j) = 1) := by
  intro t
  induction t with
  | zero => omega
  | succ t ih =>
    intro j hj
    rw [partialWord_succ]
    rcases Nat.lt_or_ge j t with hjt | hjt
    · rcases Nat.le_one_iff_eq_zero_or_eq_one.mp
        (pixelBit_le_one data (64 * k + t)) with hb | hb
      · rw [hb]
        simpa using ih j hjt
      · rw [hb, one_mul, Nat.add_comm, Nat.testBit_two_pow_add_gt hjt]
        exact ih j hjt
    · have hjeq : j = t := by omega
      subst hjeq
      rcases Nat.le_one_iff_eq_zero_or_eq_one.mp
        (pixelBit_le_one data (64 * k + j)) with hb | hb
      · rw [hb]
        simp only [Nat.zero_mul, Nat.add_zero]
        rw [Nat.testBit_lt_two_pow (partialWord_lt data k j)]
        simp
      · rw [hb, one_mul, Nat.add_comm, Nat.testBit_two_pow_add_eq]
        rw [Nat.testBit_lt_two_pow (partialWord_lt data k j)]
        simp

theorem wordVal_testBit (data : List Nat) (i : Nat) (h : i < numPixels data) :
    Nat.testBit (wordVal data (i / 64)) (i % 64) =
      decide (data.getD (3 * i) 0 = 255) := by
  have hqm : 64 * (i / 64) + i % 64 = i := Nat.div_add_mod i 64
  have hlt : i % 64 < min 64 (numPixels data - 64 * (i / 64)) := by omega
  rw [wordVal, partialWord_testBit data (i / 64) _ _ hlt, hqm]
  simp [pixelBit_eq_one_iff]

/-! ### Shape of the formatted words -/

theorem hexDigitsRevFuel_congr :
    ∀ f1 f2 n, n ≤ f1 → n ≤ f2 → hexDigitsRevFuel f1 n = hexDigitsRevFuel f2 n := by
  intro f1
  induction f1 with
  | zero =>
    intro f2 n h1 _
    have : n = 0 := by omega
    subst this
    cases f2 <;> rfl
  | succ f1 ih =>
    intro f2 n h1 h2
    match n, f2 with
    | 0, f2 => cases f2 <;> rfl
    | n + 1, f2 + 1 =>
      show hexDigit _ :: hexDigitsRevFuel f1 ((n + 1) / 16) =
        hexDigit _ :: hexDigitsRevFuel f2 ((n + 1) / 16)
      have hd : (n + 1) / 16 < n + 1 := Nat.div_lt_self (by omega) (by omega)
      rw [ih f2 ((n + 1) / 16) (by omega) (by omega)]

theorem hexDigitsRev_eq (n : Nat) :
    hexDigitsRev n =
      if n = 0 then [] else hexDigit (n % 16) :: hexDigitsRev (n / 16) := by
  match n with
  | 0 => rfl
  | n + 1 =>
    show hexDigit _ :: hexDigitsRevFuel n ((n + 1) / 16) = _
    rw [if_neg (by omega)]
    unfold hexDigitsRev
    have hd : (n + 1) / 16 < n + 1 := Nat.div_lt_self (by omega) (by omega)
    rw [hexDigitsRevFuel_congr n ((n + 1) / 16) ((n + 1) / 16) (by omega) (by omega)]

theorem hexDigitsRev_length_le :
    ∀ n k, n < 16 ^ k → (hexDigitsRev n).length ≤ k := by
  intro n
  induction n using Nat.strong_induction_on with
  | _ n ih =>
    intro k hk
    rw [hexDigitsRev_eq]
    split
    · simp
    · rename_i hn
      match k with
      | 0 =>
        simp at hk
        omega
      | k + 1 =>
        have hdivlt : n / 16 < 16 ^ k := by
          rw [Nat.div_lt_iff_lt_mul (by norm_num)]
          calc n < 16 ^ (k + 1) := hk
            _ = 16 ^ k * 16 := by ring
        have := ih (n / 16) (Nat.div_lt_self (by omega) (by omega)) k hdivlt
        simpa using this

theorem hexDigitsRev_mem :
    ∀ n c, c ∈ hexDigitsRev n → c ∈ hexChars := by
  intro n
  induction n using Nat.strong_induction_on with
  | _ n ih =>
    intro c hc
    rw [hexDigitsRev_eq] at hc
    split at hc
    · simp at hc
    · rename_i hn
      rcases List.mem_cons.mp hc with hc1 | hc2
      · subst hc1
        have hlen : n % 16 < hexChars.length := by
          have : n % 16 < 16 := Nat.mod_lt n (by omega)
          simpa [hexChars] using this
        rw [hexDigit, List.getD_eq_getElem hexChars '0' hlen]
        exact List.getElem_mem hlen
      · exact ih (n / 16) (Nat.div_lt_self (by omega) (by omega)) c hc2

theorem hexPad16_length {n : Nat} (h : n < 2 ^ 64) : (hexPad16 n).length = 16 := by
  unfold hexPad16
  split
  · rfl
  · rename_i hn
    have h16 : n < 16 ^ 16 := by
      calc n < 2 ^ 64 := h
        _ = 16 ^ 16 := by norm_num
    have := hexDigitsRev_length_le n 16 h16
    simp only [List.length_append, List.length_replicate, List.length_reverse]
    omega

theorem hexPad16_mem {n : Nat} {c : Char} (hc : c ∈ hexPad16 n) : c ∈ hexChars := by
  unfold hexPad16 at hc
  rcases List.mem_append.mp hc with hc1 | hc2
  · have : c = '0' := List.eq_of_mem_replicate hc1
    subst this
    decide
  · split at hc2
    · simp at hc2
      subst hc2
      decide
    · exact hexDigitsRev_mem n c (List.mem_reverse.mp hc2)

theorem hexChars_class :
    ∀ c ∈ hexChars,
      (48 ≤ c.toNat ∧ c.toNat ≤ 57) ∨ (65 ≤ c.toNat ∧ c.toNat ≤ 70) := by
  decide

theorem wordVal_lt (data : List Nat) (k : Nat) : wordVal data k < 2 ^ 64 := by
  refine lt_of_lt_of_le (partialWord_lt data k _) ?_
  exact Nat.pow_le_pow_right (by norm_num) (min_le_left _ _)

/-! ### Joining the written strings -/

/-- Stated from the wording of the spec, for comparison with the embedded
writer: join all formatted words with the two character separator of a comma
then a space, with no leading separator and no trailing separator. -/
def joinWithCommaSpace : List String → String
  | [] => ""
  | w :: ws => ws.foldl (fun acc x => acc ++ ", " ++ x) w

theorem joinWithCommaSpace_concat (l : List String) (x : String) :
    joinWithCommaSpace (l ++ [x]) =
      if l = [] then x else joinWithCommaSpace l ++ ", " ++ x := by
  cases l with
  | nil => simp [joinWithCommaSpace]
  | cons y ys => simp [joinWithCommaSpace, List.foldl_append]

theorem join_concat (l : List String) (x : String) :
    String.join (l ++ [x]) = String.join l ++ x := by
  simp [String.join, List.foldl_append]

theorem join_sep_words (w : Nat → String) :
    ∀ N, String.join ((List.range N).map
        (fun k => (if k = 0 then "" else ", ") ++ w k)) =
      joinWithCommaSpace ((List.range N).map w) := by
  intro N
  induction N with
  | zero => rfl
  | succ N ih =>
    rw [List.range_succ, List.map_append, List.map_append]
    simp only [List.map_cons, List.map_nil]
    rw [join_concat, ih, joinWithCommaSpace_concat]
    by_cases hN : N = 0
    · subst hN
      simp [joinWithCommaSpace]
    · have hne : (List.range N).map w ≠ [] := by
        simp [hN]
      rw [if_neg hne, if_neg hN, ← String.append_assoc]

/-! ### Congruence: the output depends only on the pixel bits -/

theorem wordVal_congr (d1 d2 : List Nat) (hnp : numPixels d1 = numPixels d2)
    (hbit : ∀ i, i < numPixels d1 → pixelBit d1 i = pixelBit d2 i) (k : Nat) :
    wordVal d1 k = wordVal d2 k := by
  unfold wordVal partialWord
  rw [← hnp]
  refine Finset.sum_congr rfl ?_
  intro j hj
  rw [Finset.mem_range] at hj
  have hin : 64 * k + j < numPixels d1 := by omega
  rw [hbit _ hin]

theorem tohexOutput_congr (d1 d2 : List Nat) (hnp : numPixels d1 = numPixels d2)
    (hbit : ∀ i, i < numPixels d1 → pixelBit d1 i = pixelBit d2 i) :
    tohexOutput d1 = tohexOutput d2 := by
  unfold tohexOutput
  rw [tohexRun_writes, tohexRun_writes]
  have hW : numWords d1 = numWords d2 := by
    unfold numWords
    rw [hnp]
  rw [← hW]
  congr 1
  refine List.map_congr_left ?_
  intro k _
  unfold fmtWord
  rw [wordVal_congr d1 d2 hnp hbit k]

/-! ### Resource model of the file handles -/

/-- The observable file-handle operations of the program, in program order. -/
inductive FileEv where
  | openInput
  | readInput
  | closeInput
  | openOutput
  | writeOutput
  | closeOutput
deriving DecidableEq, Repr

/-- Which I/O operations succeed in a given run of the program. -/
structure IoEnv where
  openInputOk : Bool
  readOk : Bool
  openOutputOk : Bool
  writeOk : Bool
deriving DecidableEq, Repr

/-- Resource-level model of lines 2 to 23 of tohex.py: the sequence of
completed file operations of one run.  A failing operation raises an
exception; the script installs no handler and uses plain `open` and `close`
calls with no `with` block and no `finally`, so execution stops at the
failing operation and nothing after it runs.  `numWrites` is the number of
`write` calls the loop performs; `writeOk = false` means the first `write`
raises (irrelevant when no write happens). -/
def tohexEvents (w : IoEnv) (numWrites : Nat) : List FileEv :=
  if !w.openInputOk then [] else
  if !w.readOk then [FileEv.openInput] else
  if !w.openOutputOk then [FileEv.openInput, FileEv.readInput, FileEv.closeInput] else
  if !w.writeOk && numWrites != 0 then
    [FileEv.openInput, FileEv.readInput, FileEv.closeInput, FileEv.openOutput]
  else
    [FileEv.openInput, FileEv.readInput, FileEv.closeInput, FileEv.openOutput] ++
      List.replicate numWrites FileEv.writeOutput ++ [FileEv.closeOutput]

/-! ### The claims -/

set_option maxRecDepth 10000

/-- C1: for every input byte sequence, with numPixels the floor of length
over 3, for all i below numPixels, bit i mod 64 of the word emitted at index
i div 64 equals 1 exactly when the byte at offset 3*i (the red channel of
pixel i) equals 255; bits are inserted least-significant-bit-first within
each word. -/
theorem C1_bit_invariant (data : List Nat) (i : Nat) (h : i < numPixels data) :
    (tohexRun data).writes[i / 64]? =
      some ((if i / 64 = 0 then "" else ", ") ++ "0x" ++
        format016X (wordVal data (i / 64))) ∧
    (Nat.testBit (wordVal data (i / 64)) (i % 64) = true ↔
      data.getD (3 * i) 0 = 255) := by
  constructor
  · rw [tohexRun_writes]
    have hk : i / 64 < numWords data := by
      unfold numWords
      omega
    rw [List.getElem?_map, List.getElem?_range hk]
    rfl
  · rw [wordVal_testBit data i h]
    simp

/-- C1 witness: the theorem applied to the three byte input 255, 0, 0 at
pixel 0. -/
theorem C1_bit_invariant_witness :
    0 < numPixels [255, 0, 0] ∧
    ((tohexRun [255, 0, 0]).writes[0 / 64]? =
      some ((if 0 / 64 = 0 then "" else ", ") ++ "0x" ++
        format016X (wordVal [255, 0, 0] (0 / 64))) ∧
    (Nat.testBit (wordVal [255, 0, 0] (0 / 64)) (0 % 64) = true ↔
      ([255, 0, 0] : List Nat).getD (3 * 0) 0 = 255)) :=
  ⟨by decide, C1_bit_invariant [255, 0, 0] 0 (by decide)⟩

/-- C2: the number of emitted words is the ceiling of numPixels over 64,
with numPixels the floor of the input length over 3, and the output for an
empty input is the empty string. -/
theorem C2_word_count (data : List Nat) :
    (tohexRun data).writes.length = (data.length / 3 + 63) / 64 ∧
    tohexOutput [] = "" := by
  constructor
  · rw [tohexRun_writes, List.length_map, List.length_range]
    rfl
  · rfl

/-- C3: the pixel count used is the floor of the length over 3, and trailing
1 or 2 bytes beyond the last complete triplet never change the output and
never raise an error. -/
theorem C3_trailing_ignored (data extra : List Nat) (hlen : data.length % 3 = 0)
    (hex : extra.length ≤ 2) :
    numPixels (data ++ extra) = (data ++ extra).length / 3 ∧
    tohexOutput (data ++ extra) = tohexOutput data := by
  refine ⟨rfl, ?_⟩
  have hnp : numPixels (data ++ extra) = numPixels data := by
    unfold numPixels
    rw [List.length_append]
    omega
  refine tohexOutput_congr _ _ hnp ?_
  intro i hi
  rw [hnp] at hi
  have h3 : 3 * i < data.length := by
    unfold numPixels at hi
    omega
  unfold pixelBit
  rw [List.getD_append _ _ _ _ h3]

/-- C3 witness: the theorem applied to the input 255, 0, 0 with one trailing
byte 7. -/
theorem C3_trailing_ignored_witness :
    ([255, 0, 0] : List Nat).length % 3 = 0 ∧
    ([7] : List Nat).length ≤ 2 ∧
    (numPixels ([255, 0, 0] ++ [7]) = (([255, 0, 0] : List Nat) ++ [7]).length / 3 ∧
      tohexOutput ([255, 0, 0] ++ [7]) = tohexOutput [255, 0, 0]) :=
  ⟨by decide, by decide, C3_trailing_ignored [255, 0, 0] [7] (by decide) (by decide)⟩

/-- C4: every emitted word is the string 0x followed by exactly sixteen
characters that are decimal digits or the uppercase letters A to F, for
every input and every word index. -/
theorem C4_word_shape (data : List Nat) (k : Nat) (s : String)
    (h : (tohexRun data).writes[k]? = some s) :
    ∃ t : List Char,
      s = (if k = 0 then "" else ", ") ++ "0x" ++ String.mk t ∧
      t.length = 16 ∧
      ∀ c ∈ t, (48 ≤ c.toNat ∧ c.toNat ≤ 57) ∨ (65 ≤ c.toNat ∧ c.toNat ≤ 70) := by
  rw [tohexRun_writes] at h
  obtain ⟨hlt, hval⟩ := List.getElem?_eq_some.mp h
  refine ⟨hexPad16 (wordVal data k), ?_, hexPad16_length (wordVal_lt data k), ?_⟩
  · rw [← hval]
    rw [List.getElem_map]
    have hk : k < numWords data := by simpa using hlt
    rw [List.getElem_range]
    rfl
  · intro c hc
    exact hexChars_class c (hexPad16_mem hc)

/-- C4 witness: the theorem applied to the three byte input 255, 0, 0 and
its single emitted word. -/
theorem C4_word_shape_witness :
    (tohexRun [255, 0, 0]).writes[(0 : Nat)]? = some "0x0000000000000001" ∧
    (∃ t : List Char,
      "0x0000000000000001" = (if (0 : Nat) = 0 then "" else ", ") ++ "0x" ++ String.mk t ∧
      t.length = 16 ∧
      ∀ c ∈ t, (48 ≤ c.toNat ∧ c.toNat ≤ 57) ∨ (65 ≤ c.toNat ∧ c.toNat ≤ 70)) :=
  ⟨by decide, C4_word_shape [255, 0, 0] 0 "0x0000000000000001" (by decide)⟩

/-- C5: when numPixels is not a multiple of 64, the final partial word is
still emitted at the last pixel, with every bit at position at least
numPixels mod 64 equal to zero; concretely, the 195 byte input whose first
byte is 255 and all other bytes are 0 produces exactly the two words
0x0000000000000001 and 0x0000000000000000. -/
theorem C5_final_partial_word (data : List Nat)
    (hmod : numPixels data % 64 ≠ 0) :
    (tohexRun data).writes[numWords data - 1]? =
      some ((if numWords data - 1 = 0 then "" else ", ") ++ "0x" ++
        format016X (wordVal data (numWords data - 1))) ∧
    wordVal data (numWords data - 1) < 2 ^ (numPixels data % 64) ∧
    tohexOutput (255 :: List.replicate 194 0) =
      "0x0000000000000001, 0x0000000000000000" := by
  have hpos : 0 < numPixels data := by omega
  have hW : 0 < numWords data := by
    unfold numWords
    omega
  refine ⟨?_, ?_, by decide⟩
  · rw [tohexRun_writes, List.getElem?_map, List.getElem?_range (by omega)]
    rfl
  · have hq : numWords data - 1 = numPixels data / 64 := by
      unfold numWords
      omega
    rw [hq, wordVal]
    have hmin : min 64 (numPixels data - 64 * (numPixels data / 64)) =
        numPixels data % 64 := by omega
    rw [hmin]
    exact partialWord_lt data _ _

/-- C5 witness: the theorem applied to the 195 byte boundary input. -/
theorem C5_final_partial_word_witness :
    numPixels (255 :: List.replicate 194 0) % 64 ≠ 0 ∧
    ((tohexRun (255 :: List.replicate 194 0)).writes[numWords (255 :: List.replicate 194 0) - 1]? =
      some ((if numWords (255 :: List.replicate 194 0) - 1 = 0 then "" else ", ") ++ "0x" ++
        format016X (wordVal (255 :: List.replicate 194 0) (numWords (255 :: List.replicate 194 0) - 1))) ∧
    wordVal (255 :: List.replicate 194 0) (numWords (255 :: List.replicate 194 0) - 1) <
      2 ^ (numPixels (255 :: List.replicate 194 0) % 64) ∧
    tohexOutput (255 :: List.replicate 194 0) =
      "0x0000000000000001, 0x0000000000000000") :=
  ⟨by decide, C5_final_partial_word (255 :: List.replicate 194 0) (by decide)⟩

/-- C6: for every input the output text is exactly the formatted words
joined by the two character separator of a comma then a space, with no
leading and no trailing separator. -/
theorem C6_separator (data : List Nat) :
    tohexOutput data =
      joinWithCommaSpace ((List.range (numWords data)).map
        (fun k => "0x" ++ format016X (wordVal data k))) := by
  unfold tohexOutput
  rw [tohexRun_writes]
  rw [← join_sep_words (fun k => "0x" ++ format016X (wordVal data k)) (numWords data)]
  congr 1
  refine List.map_congr_left ?_
  intro k _
  unfold fmtWord
  rw [String.append_assoc]

/-- C7 counterexample: on the run where the read raises, execution stops at
the read and neither close is ever executed, so the input handle is not
closed on that error path, contrary to the claim that both handles are
closed on every exit path including error paths. -/
theorem C7_counterexample :
    FileEv.closeInput ∉
      tohexEvents { openInputOk := true, readOk := false,
                    openOutputOk := true, writeOk := true } 1 ∧
    FileEv.closeOutput ∉
      tohexEvents { openInputOk := true, readOk := false,
                    openOutputOk := true, writeOk := true } 1 := by
  decide

/-- C7 amended: each handle is closed on every run in which the operations
before its close succeed: the input handle is closed whenever the open and
the read succeed, and the output handle is closed whenever everything up to
and including the writes succeeds; a failing read or write skips the
corresponding explicit close. -/
theorem C7_amended_close (w : IoEnv) (nw : Nat) :
    (w.openInputOk = true ∧ w.readOk = true →
      FileEv.closeInput ∈ tohexEvents w nw) ∧
    (w.openInputOk = true ∧ w.readOk = true ∧ w.openOutputOk = true ∧
        w.writeOk = true →
      FileEv.closeOutput ∈ tohexEvents w nw) := by
  obtain ⟨o1, r, o2, wr⟩ := w
  constructor
  · rintro ⟨h1, h2⟩
    subst h1
    subst h2
    unfold tohexEvents
    cases o2
    · simp
    · cases wr
      · simp
        split <;> simp
      · simp
  · rintro ⟨h1, h2, h3, h4⟩
    subst h1
    subst h2
    subst h3
    subst h4
    unfold tohexEvents
    simp

/-- C7 amended witness: the theorem applied to the all-success run with two
writes. -/
theorem C7_amended_close_witness :
    FileEv.closeInput ∈
      tohexEvents { openInputOk := true, readOk := true,
                    openOutputOk := true, writeOk := true } 2 ∧
    FileEv.closeOutput ∈
      tohexEvents { openInputOk := true, readOk := true,
                    openOutputOk := true, writeOk := true } 2 :=
  ⟨(C7_amended_close { openInputOk := true, readOk := true,
                       openOutputOk := true, writeOk := true } 2).1 ⟨rfl, rfl⟩,
   (C7_amended_close { openInputOk := true, readOk := true,
                       openOutputOk := true, writeOk := true } 2).2 ⟨rfl, rfl, rfl, rfl⟩⟩

/-- C8: the packer is deterministic: two runs on identical input byte
sequences produce identical output text. -/
theorem C8_deterministic (d1 d2 : List Nat) (h : d1 = d2) :
    tohexOutput d1 = tohexOutput d2 :=
  congrArg tohexOutput h

/-- C8 witness: the theorem applied to two identical one byte inputs. -/
theorem C8_deterministic_witness :
    ([0] : List Nat) = [0] ∧ tohexOutput [0] = tohexOutput [0] :=
  ⟨rfl, C8_deterministic [0] [0] rfl⟩

/-- C9: the output depends only on whether each byte at offset 3*i, for i
below the pixel count, equals 255; two equal-length inputs agreeing on
those tests produce byte-for-byte identical output, whatever their green
and blue channels and trailing bytes contain. -/
theorem C9_noninterference (d1 d2 : List Nat) (hlen : d1.length = d2.length)
    (h : ∀ i, i < d1.length / 3 →
      (d1.getD (3 * i) 0 = 255 ↔ d2.getD (3 * i) 0 = 255)) :
    tohexOutput d1 = tohexOutput d2 := by
  have hnp : numPixels d1 = numPixels d2 := by
    unfold numPixels
    rw [hlen]
  refine tohexOutput_congr d1 d2 hnp ?_
  intro i hi
  have hiff := h i hi
  unfold pixelBit
  by_cases hc : d1.getD (3 * i) 0 = 255
  · rw [if_pos hc, if_pos (hiff.mp hc)]
  · rw [if_neg hc, if_neg (fun hc2 => hc (hiff.mpr hc2))]

/-- C9 witness: the theorem applied to 255, 0, 0 and 255, 9, 9, which differ
only in green and blue channels. -/
theorem C9_noninterference_witness :
    ([255, 0, 0] : List Nat).length = ([255, 9, 9] : List Nat).length ∧
    (∀ i, i < ([255, 0, 0] : List Nat).length / 3 →
      (([255, 0, 0] : List Nat).getD (3 * i) 0 = 255 ↔
        ([255, 9, 9] : List Nat).getD (3 * i) 0 = 255)) ∧
    tohexOutput [255, 0, 0] = tohexOutput [255, 9, 9] :=
  ⟨by decide, by decide,
    C9_noninterference [255, 0, 0] [255, 9, 9] (by decide) (by decide)⟩

/-- C10: at the top of every loop iteration the accumulator holds fewer than
64 bits: numBits is at most 63 and bits is below 2 to the numBits, so the
shift of the pixel value never reaches bit 64 and every flushed value fits
in sixteen hexadecimal digits; moreover the iteration that flushes leaves
bits and numBits equal to zero. -/
theorem C10_accumulator_invariant (data : List Nat) (m : Nat)
    (hm : m < numPixels data) :
    ((stateAfter data m).numBits ≤ 63 ∧
      (stateAfter data m).bits < 2 ^ (stateAfter data m).numBits) ∧
    ((stateAfter data m).numBits + 1 = 64 ∨ m = numPixels data - 1 →
      (stateAfter data (m + 1)).bits = 0 ∧
        (stateAfter data (m + 1)).numBits = 0) := by
  have hinv := stateAfter_invariant data m hm
  constructor
  · rw [hinv]
    dsimp only
    exact ⟨by omega, partialWord_lt data (m / 64) (m % 64)⟩
  · intro hflush
    rw [stateAfter_succ data m hm]
    simp only [packStep]
    rw [if_pos hflush]
    exact ⟨rfl, rfl⟩

/-- C10 witness: the theorem applied to the three byte input 255, 0, 0 at
iteration 0. -/
theorem C10_accumulator_invariant_witness :
    0 < numPixels [255, 0, 0] ∧
    (((stateAfter [255, 0, 0] 0).numBits ≤ 63 ∧
      (stateAfter [255, 0, 0] 0).bits < 2 ^ (stateAfter [255, 0, 0] 0).numBits) ∧
    ((stateAfter [255, 0, 0] 0).numBits + 1 = 64 ∨ 0 = numPixels [255, 0, 0] - 1 →
      (stateAfter [255, 0, 0] (0 + 1)).bits = 0 ∧
        (stateAfter [255, 0, 0] (0 + 1)).numBits = 0)) :=
  ⟨by decide, C10_accumulator_invariant [255, 0, 0] 0 (by decide)⟩
